import Mathlib

/-!
Verification of the candidate-to-job matching core of the ATS project.

The development shallowly embeds the data model and the algorithms of the
matching engine: the capability-graph skill weights, the competency
normalizer buckets, the evidence matcher, the weighted scoring engine with
its skill-only coverage penalty, the feedback weight adapter, the
application-preview cache, and the match-percent rendering of the
BrowseJobs page.  Real arithmetic is carried out over the rationals.
-/

namespace ATS

/-- The node types of the capability graph. -/
inductive NodeType
  | Candidate
  | Project
  | Skill
  | Tool
  | Experience
  | Education
  | Publication
  | Award
  | Competency
  deriving DecidableEq, Repr

/-- Proficiency levels of a candidate skill, on the ordered scale used by
the graph builder. -/
inductive Proficiency
  | BEGINNER
  | INTERMEDIATE
  | ADVANCED
  | EXPERT
  deriving DecidableEq, Repr

/-- The multiplier attached to each proficiency level. -/
def proficiency_multiplier : Proficiency → ℚ
  | .BEGINNER => 3/10
  | .INTERMEDIATE => 6/10
  | .ADVANCED => 8/10
  | .EXPERT => 1

/-- Base weight of a skill edge. -/
def base_weight : ℚ := 1/2

/-- Experience multiplier: `min(1.0, years / 5.0)`. -/
def experience_multiplier (years : ℕ) : ℚ := min 1 ((years : ℚ) / 5)

/-- Clamp a rational to the interval `[0, 1]`. -/
def clamp01 (x : ℚ) : ℚ := min (max x 0) 1

/-- Weight of a skill edge:
`base_weight * proficiency_multiplier * experience_multiplier`, clamped to
`[0, 1]`. -/
def skill_weight (p : Proficiency) (years : ℕ) : ℚ :=
  clamp01 (base_weight * proficiency_multiplier p * experience_multiplier years)

/-- Render a proficiency level the way the profile stores it. -/
def Proficiency.text : Proficiency → String
  | .BEGINNER => "BEGINNER"
  | .INTERMEDIATE => "INTERMEDIATE"
  | .ADVANCED => "ADVANCED"
  | .EXPERT => "EXPERT"

/-- The embedding-friendly text composed for a skill node:
name, category, proficiency level and years of experience. -/
def compose_skill_text (name category : String) (p : Proficiency) (years : ℕ) : String :=
  name ++ " (" ++ category ++ " skill, " ++ p.text ++ " level, " ++ toString years ++ " years)"

/-- A node of the capability graph that carries an embedding, as seen by the
evidence matcher. -/
structure GraphNode where
  nodeId : ℕ
  nodeType : NodeType
  embedding_text : String
  deriving DecidableEq, Repr

/-- Importance flag of a job competency. -/
inductive Importance
  | required
  | optional
  deriving DecidableEq, Repr

/-- The four keyword buckets of the competency normalizer. -/
inductive Category
  | ML_AI
  | PLATFORM
  | PROCESS
  | GENERAL
  deriving DecidableEq, Repr

/-- The weight assigned to each normalizer bucket. -/
def category_weight : Category → ℚ
  | .ML_AI => 1
  | .PLATFORM => 9/10
  | .PROCESS => 1/2
  | .GENERAL => 8/10

/-- The similarity acceptance threshold assigned to each normalizer bucket. -/
def category_threshold : Category → ℚ
  | .ML_AI => 35/100
  | .PLATFORM => 38/100
  | .PROCESS => 30/100
  | .GENERAL => 35/100

/-- A normalized job competency. -/
structure Competency where
  name : String
  description : String
  category : Category
  importance : Importance
  deriving DecidableEq, Repr

/-- The weight of a normalized competency, taken from its bucket. -/
def Competency.weight (c : Competency) : ℚ := category_weight c.category

/-- The match threshold of a normalized competency, taken from its bucket. -/
def Competency.match_threshold (c : Competency) : ℚ := category_threshold c.category

/-- The text embedded for a competency: name followed by description. -/
def compose_competency_text (c : Competency) : String :=
  c.name ++ " (" ++ c.description ++ ")"

/-- One evidence item retained by the matcher. -/
structure Evidence where
  node_id : ℕ
  node_type : NodeType
  similarity : ℚ
  text : String
  deriving DecidableEq, Repr

/-- The hard similarity floor below which evidence is discarded. -/
def evidence_floor : ℚ := 25/100

/-- Walk over the graph nodes and collect an evidence item for every node
whose similarity to the competency exceeds the hard floor. -/
def collect_evidence (sim : GraphNode → ℚ) : List GraphNode → List Evidence
  | [] => []
  | n :: ns =>
    if evidence_floor < sim n then
      { node_id := n.nodeId, node_type := n.nodeType, similarity := sim n,
        text := n.embedding_text } :: collect_evidence sim ns
    else
      collect_evidence sim ns

/-- Descending similarity order on evidence items. -/
def sim_desc (a b : Evidence) : Prop := b.similarity ≤ a.similarity

instance : DecidableRel sim_desc := fun a b =>
  inferInstanceAs (Decidable (b.similarity ≤ a.similarity))

instance : IsTotal Evidence sim_desc := ⟨fun a b => le_total b.similarity a.similarity⟩

instance : IsTrans Evidence sim_desc :=
  ⟨fun _ _ _ h₁ h₂ => le_trans h₂ h₁⟩

/-- The evidence matcher: retain the nodes above the similarity floor, sort
them by descending similarity, return the top 5. -/
def find_evidence_matches (sim : GraphNode → ℚ) (nodes : List GraphNode) : List Evidence :=
  (List.insertionSort sim_desc (collect_evidence sim nodes)).take 5

/-- The best similarity among retained evidence: the maximum similarity of a
nonempty evidence list, and 0 when none is retained. -/
def best_similarity : List Evidence → ℚ
  | [] => 0
  | e :: rest => if rest = [] then e.similarity else max e.similarity (best_similarity rest)

/-- Status of a competency in a match report. -/
inductive MatchStatus
  | matched
  | partialMatch
  | missing
  deriving DecidableEq, Repr

/-- The record appended for a competency that has retained evidence. -/
structure CompMatch where
  comp : Competency
  status : MatchStatus
  similarity : ℚ
  coverage : ℚ
  evidence : List Evidence
  deriving DecidableEq, Repr

/-- The multiplier attached to a competency's importance flag:
3/2 for a required competency and 1 for an optional one. -/
def Competency.boost (c : Competency) : ℚ :=
  match c.importance with
  | .required => 3/2
  | .optional => 1

/-- Points a competency can contribute: its weight times its boost. -/
def points_possible (c : Competency) : ℚ := c.weight * c.boost

/-- Threshold step of the scoring loop: a competency without retained
evidence is recorded as missing (`none`); otherwise full credit is granted
at or above the threshold and proportional partial credit below it.  The
top 3 evidence items are kept on the record. -/
def scoreComp (c : Competency) (ev : List Evidence) : Option CompMatch :=
  match ev with
  | [] => none
  | _ :: _ =>
    let best := best_similarity ev
    if c.match_threshold ≤ best then
      some { comp := c, status := .matched, similarity := best, coverage := 1,
             evidence := ev.take 3 }
    else
      some { comp := c, status := .partialMatch, similarity := best,
             coverage := best / c.match_threshold, evidence := ev.take 3 }

/-- The evidence-quality penalty constant. -/
def skill_only_coverage_penalty : ℚ := 7/10

/-- Penalty step of the scoring loop: when every evidence item kept on the
record is a bare Skill node, the coverage is multiplied by the penalty. -/
def applyPenalty (m : CompMatch) : CompMatch :=
  if m.evidence.all fun e => e.node_type == NodeType.Skill then
    { m with coverage := m.coverage * skill_only_coverage_penalty }
  else
    m

/-- A competency paired with the evidence the matcher retained for it. -/
abbrev CompEvidence := Competency × List Evidence

/-- Process the competency list: competencies with retained evidence are
scored (threshold step then penalty step) and collected in order; the
others are collected in the missing list. -/
def processComps : List CompEvidence → List CompMatch × List Competency
  | [] => ([], [])
  | (c, ev) :: rest =>
    let r := processComps rest
    match scoreComp c ev with
    | none => (r.1, c :: r.2)
    | some m => (applyPenalty m :: r.1, r.2)

/-- Total points possible, accumulated over the scored records. -/
def total_possible (ms : List CompMatch) : ℚ :=
  (ms.map fun m => points_possible m.comp).sum

/-- Total points earned, accumulated over the scored records. -/
def total_earned (ms : List CompMatch) : ℚ :=
  (ms.map fun m => points_possible m.comp * m.coverage).sum

/-- Final match strength: earned over possible, 0 when nothing is possible. -/
def match_strength_of (ms : List CompMatch) : ℚ :=
  if 0 < total_possible ms then total_earned ms / total_possible ms else 0

/-- Score a job given each competency's retained evidence. -/
def score_job (pairs : List CompEvidence) : ℚ :=
  match_strength_of (processComps pairs).1

/-- Final coverage of a competency given its retained evidence: 0 when the
competency is missing, otherwise the penalized coverage of its record. -/
def final_coverage (c : Competency) (ev : List Evidence) : ℚ :=
  match scoreComp c ev with
  | none => 0
  | some m => (applyPenalty m).coverage

/-- Status of a competency given its retained evidence. -/
def comp_status (c : Competency) (ev : List Evidence) : MatchStatus :=
  match scoreComp c ev with
  | none => .missing
  | some m => m.status

/-- Full pipeline: run the matcher for every competency of the job against
the candidate's embedded nodes, then score. -/
def score_candidate (simf : String → String → ℚ) (nodes : List GraphNode)
    (comps : List Competency) : ℚ :=
  score_job (comps.map fun c =>
    (c, find_evidence_matches (fun n => simf (compose_competency_text c) n.embedding_text) nodes))

/-! ### Basic facts about the arithmetic helpers -/

lemma clamp01_nonneg (x : ℚ) : 0 ≤ clamp01 x :=
  le_min (le_max_right x 0) zero_le_one

lemma clamp01_le_one (x : ℚ) : clamp01 x ≤ 1 :=
  min_le_right _ _

lemma clamp01_of_mem {x : ℚ} (h0 : 0 ≤ x) (h1 : x ≤ 1) : clamp01 x = x := by
  unfold clamp01
  rw [max_eq_left h0, min_eq_left h1]

lemma sum_nonneg_of_nonneg {l : List ℚ} (h : ∀ x ∈ l, 0 ≤ x) : 0 ≤ l.sum := by
  induction l with
  | nil => simp
  | cons a t ih =>
    simp only [List.sum_cons]
    have ha := h a (List.mem_cons_self a t)
    have ht := ih fun x hx => h x (List.mem_cons_of_mem a hx)
    linarith

lemma sum_pos_of_pos {l : List ℚ} (hne : l ≠ []) (h : ∀ x ∈ l, 0 < x) : 0 < l.sum := by
  cases l with
  | nil => exact absurd rfl hne
  | cons a t =>
    simp only [List.sum_cons]
    have ha := h a (List.mem_cons_self a t)
    have ht : 0 ≤ t.sum :=
      sum_nonneg_of_nonneg fun x hx => le_of_lt (h x (List.mem_cons_of_mem a hx))
    linarith

lemma sum_all_zero {l : List ℚ} (h : ∀ x ∈ l, 0 ≤ x) (hs : l.sum = 0) :
    ∀ x ∈ l, x = 0 := by
  induction l with
  | nil => simp
  | cons a t ih =>
    simp only [List.sum_cons] at hs
    have ha := h a (List.mem_cons_self a t)
    have ht : 0 ≤ t.sum :=
      sum_nonneg_of_nonneg fun x hx => h x (List.mem_cons_of_mem a hx)
    have ha0 : a = 0 := by linarith
    intro x hx
    rcases List.mem_cons.mp hx with rfl | hx
    · exact ha0
    · exact ih (fun y hy => h y (List.mem_cons_of_mem a hy)) (by linarith) x hx

lemma map_sum_le {α : Type} {l : List α} {f g : α → ℚ}
    (h : ∀ x ∈ l, f x ≤ g x) : (l.map f).sum ≤ (l.map g).sum := by
  induction l with
  | nil => simp
  | cons a t ih =>
    simp only [List.map_cons, List.sum_cons]
    have ha := h a (List.mem_cons_self a t)
    have ht := ih fun x hx => h x (List.mem_cons_of_mem a hx)
    linarith

/-! ### Facts about the normalizer buckets -/

lemma category_weight_pos (cat : Category) : 0 < category_weight cat := by
  cases cat <;> norm_num [category_weight]

lemma category_threshold_pos (cat : Category) : 0 < category_threshold cat := by
  cases cat <;> norm_num [category_threshold]

lemma boost_pos (c : Competency) : 0 < c.boost := by
  unfold Competency.boost
  cases c.importance <;> norm_num

lemma points_possible_pos (c : Competency) : 0 < points_possible c :=
  mul_pos (category_weight_pos c.category) (boost_pos c)

/-! ### Facts about the best retained similarity -/

lemma best_similarity_cons (e : Evidence) (rest : List Evidence) :
    best_similarity (e :: rest) =
      if rest = [] then e.similarity else max e.similarity (best_similarity rest) := rfl

lemma le_best_similarity {e : Evidence} {l : List Evidence} (h : e ∈ l) :
    e.similarity ≤ best_similarity l := by
  induction l with
  | nil => cases h
  | cons a t ih =>
    rcases List.mem_cons.mp h with rfl | ht
    · cases t with
      | nil => simp [best_similarity]
      | cons b u => simp [best_similarity, le_max_iff]
    · cases t with
      | nil => cases ht
      | cons b u =>
        rw [best_similarity_cons, if_neg (by simp)]
        exact le_max_of_le_right (ih ht)

lemma best_similarity_mem {l : List Evidence} (h : l ≠ []) :
    ∃ e ∈ l, best_similarity l = e.similarity := by
  induction l with
  | nil => exact absurd rfl h
  | cons a t ih =>
    cases t with
    | nil => exact ⟨a, List.mem_cons_self a [], by simp [best_similarity]⟩
    | cons b u =>
      obtain ⟨e, he, hbest⟩ := ih (by simp)
      by_cases hab : best_similarity (b :: u) ≤ a.similarity
      · refine ⟨a, List.mem_cons_self a _, ?_⟩
        rw [best_similarity_cons, if_neg (by simp)]
        exact max_eq_left hab
      · refine ⟨e, List.mem_cons_of_mem a he, ?_⟩
        rw [best_similarity_cons, if_neg (by simp), max_eq_right (le_of_not_le hab)]
        exact hbest

lemma best_similarity_eq_of_mem_subset {l₁ l₂ : List Evidence}
    (h₁ : l₁ ≠ []) (h₂ : l₂ ≠ [])
    (hsub : ∀ e ∈ l₁, e ∈ l₂) (hdom : ∀ e ∈ l₂, e.similarity ≤ best_similarity l₁) :
    best_similarity l₁ = best_similarity l₂ := by
  obtain ⟨e₁, he₁, hb₁⟩ := best_similarity_mem h₁
  obtain ⟨e₂, he₂, hb₂⟩ := best_similarity_mem h₂
  have hle : best_similarity l₁ ≤ best_similarity l₂ := by
    rw [hb₁]; exact le_best_similarity (hsub e₁ he₁)
  have hge : best_similarity l₂ ≤ best_similarity l₁ := by
    rw [hb₂]; exact hdom e₂ he₂
  exact le_antisymm hle hge

lemma best_similarity_perm {l₁ l₂ : List Evidence} (h : l₁.Perm l₂) :
    best_similarity l₁ = best_similarity l₂ := by
  cases l₁ with
  | nil => rw [h.nil_eq]
  | cons a t =>
    have h₂ : l₂ ≠ [] := by
      intro hnil
      rw [hnil] at h
      exact absurd h.eq_nil (by simp)
    refine best_similarity_eq_of_mem_subset (by simp) h₂
      (fun e he => h.mem_iff.mp he) (fun e he => le_best_similarity (h.mem_iff.mpr he))

lemma best_similarity_take_of_sorted {l : List Evidence}
    (hs : List.Sorted sim_desc l) {n : ℕ} (hn : 0 < n) :
    best_similarity (l.take n) = best_similarity l := by
  cases l with
  | nil => simp
  | cons a t =>
    cases n with
    | zero => cases hn.ne rfl
    | succ m =>
      have htake : a ∈ (a :: t).take (m + 1) := by
        simp [List.take_succ_cons]
      have hsubtake : ∀ e ∈ (a :: t).take (m + 1), e ∈ a :: t :=
        fun e he => (List.take_sublist _ _).mem he
      refine best_similarity_eq_of_mem_subset ?_ (by simp) hsubtake ?_
      · simp [List.take_succ_cons]
      · intro e he
        rcases List.mem_cons.mp he with rfl | het
        · exact le_best_similarity htake
        · have hae : sim_desc a e := (List.sorted_cons.mp hs).1 e het
          exact le_trans hae (le_best_similarity htake)

/-! ### Facts about the threshold and penalty steps -/

lemma scoreComp_eq_none_iff (c : Competency) (ev : List Evidence) :
    scoreComp c ev = none ↔ ev = [] := by
  cases ev with
  | nil => simp [scoreComp]
  | cons a t =>
    simp only [scoreComp]
    split <;> simp

lemma scoreComp_comp {c : Competency} {ev : List Evidence} {m : CompMatch}
    (h : scoreComp c ev = some m) : m.comp = c := by
  cases ev with
  | nil => simp [scoreComp] at h
  | cons a t =>
    simp only [scoreComp] at h
    split at h <;> (cases h; rfl)

lemma scoreComp_evidence {c : Competency} {ev : List Evidence} {m : CompMatch}
    (h : scoreComp c ev = some m) : m.evidence = ev.take 3 := by
  cases ev with
  | nil => simp [scoreComp] at h
  | cons a t =>
    simp only [scoreComp] at h
    split at h <;> (cases h; rfl)

lemma scoreComp_coverage {c : Competency} {ev : List Evidence} {m : CompMatch}
    (h : scoreComp c ev = some m) :
    m.coverage = if c.match_threshold ≤ best_similarity ev then 1
      else best_similarity ev / c.match_threshold := by
  cases ev with
  | nil => simp [scoreComp] at h
  | cons a t =>
    simp only [scoreComp] at h
    split at h
    · rename_i hle
      cases h
      rw [if_pos hle]
    · rename_i hlt
      cases h
      rw [if_neg hlt]

lemma applyPenalty_comp (m : CompMatch) : (applyPenalty m).comp = m.comp := by
  unfold applyPenalty
  split <;> rfl

lemma applyPenalty_coverage (m : CompMatch) :
    (applyPenalty m).coverage =
      if m.evidence.all (fun e => e.node_type == NodeType.Skill) then
        m.coverage * skill_only_coverage_penalty
      else m.coverage := by
  unfold applyPenalty
  split <;> simp_all

/-! ### Facts about the scoring loop accumulators -/

/-- The competency pairs that carry retained evidence. -/
def evidenced (pairs : List CompEvidence) : List CompEvidence :=
  pairs.filter fun p => !p.2.isEmpty

lemma processComps_cons (c : Competency) (ev : List Evidence) (rest : List CompEvidence) :
    processComps ((c, ev) :: rest) =
      match scoreComp c ev with
      | none => ((processComps rest).1, c :: (processComps rest).2)
      | some m => (applyPenalty m :: (processComps rest).1, (processComps rest).2) := rfl

lemma total_possible_cons (m : CompMatch) (ms : List CompMatch) :
    total_possible (m :: ms) = points_possible m.comp + total_possible ms := by
  simp [total_possible]

lemma total_earned_cons (m : CompMatch) (ms : List CompMatch) :
    total_earned (m :: ms) = points_possible m.comp * m.coverage + total_earned ms := by
  simp [total_earned]

lemma final_coverage_some {c : Competency} {ev : List Evidence} {m : CompMatch}
    (h : scoreComp c ev = some m) : final_coverage c ev = (applyPenalty m).coverage := by
  unfold final_coverage
  rw [h]

lemma final_coverage_none {c : Competency} {ev : List Evidence}
    (h : scoreComp c ev = none) : final_coverage c ev = 0 := by
  unfold final_coverage
  rw [h]

lemma comp_status_some {c : Competency} {ev : List Evidence} {m : CompMatch}
    (h : scoreComp c ev = some m) : comp_status c ev = m.status := by
  unfold comp_status
  rw [h]

lemma comp_status_none {c : Competency} {ev : List Evidence}
    (h : scoreComp c ev = none) : comp_status c ev = MatchStatus.missing := by
  unfold comp_status
  rw [h]

lemma total_possible_processComps (pairs : List CompEvidence) :
    total_possible (processComps pairs).1 =
      ((evidenced pairs).map fun p => points_possible p.1).sum := by
  induction pairs with
  | nil => simp [processComps, total_possible, evidenced]
  | cons p rest ih =>
    obtain ⟨c, ev⟩ := p
    rw [processComps_cons]
    cases h : scoreComp c ev with
    | none =>
      have hev : ev = [] := (scoreComp_eq_none_iff c ev).mp h
      have hfilter : evidenced ((c, ev) :: rest) = evidenced rest := by
        simp [evidenced, hev]
      rw [hfilter, ← ih]
    | some m =>
      have hev : ¬ ev = [] := by
        intro hnil
        rw [(scoreComp_eq_none_iff c ev).mpr hnil] at h
        cases h
      have hfilter : evidenced ((c, ev) :: rest) = (c, ev) :: evidenced rest := by
        simp [evidenced, hev]
      rw [hfilter]
      simp only [List.map_cons, List.sum_cons, total_possible_cons, applyPenalty_comp,
        scoreComp_comp h, ih]

lemma total_earned_processComps (pairs : List CompEvidence) :
    total_earned (processComps pairs).1 =
      ((evidenced pairs).map fun p => points_possible p.1 * final_coverage p.1 p.2).sum := by
  induction pairs with
  | nil => simp [processComps, total_earned, evidenced]
  | cons p rest ih =>
    obtain ⟨c, ev⟩ := p
    rw [processComps_cons]
    cases h : scoreComp c ev with
    | none =>
      have hev : ev = [] := (scoreComp_eq_none_iff c ev).mp h
      have hfilter : evidenced ((c, ev) :: rest) = evidenced rest := by
        simp [evidenced, hev]
      rw [hfilter, ← ih]
    | some m =>
      have hev : ¬ ev = [] := by
        intro hnil
        rw [(scoreComp_eq_none_iff c ev).mpr hnil] at h
        cases h
      have hfilter : evidenced ((c, ev) :: rest) = (c, ev) :: evidenced rest := by
        simp [evidenced, hev]
      have hcov : (applyPenalty m).coverage = final_coverage c ev :=
        (final_coverage_some h).symm
      rw [hfilter]
      simp only [List.map_cons, List.sum_cons, total_earned_cons, applyPenalty_comp,
        scoreComp_comp h, hcov, ih]

lemma processComps_append (xs ys : List CompEvidence) :
    processComps (xs ++ ys) =
      ((processComps xs).1 ++ (processComps ys).1,
       (processComps xs).2 ++ (processComps ys).2) := by
  induction xs with
  | nil => simp [processComps]
  | cons p rest ih =>
    obtain ⟨c, ev⟩ := p
    rw [List.cons_append, processComps_cons, processComps_cons]
    cases h : scoreComp c ev <;> simp [ih]

lemma match_threshold_pos (c : Competency) : 0 < c.match_threshold :=
  category_threshold_pos c.category

lemma scoreComp_status {c : Competency} {ev : List Evidence} {m : CompMatch}
    (h : scoreComp c ev = some m) :
    m.status = if c.match_threshold ≤ best_similarity ev then MatchStatus.matched
      else MatchStatus.partialMatch := by
  cases ev with
  | nil => simp [scoreComp] at h
  | cons a t =>
    simp only [scoreComp] at h
    split at h
    · rename_i hle
      cases h
      rw [if_pos hle]
    · rename_i hlt
      cases h
      rw [if_neg hlt]

lemma best_above_floor {ev : List Evidence} (hev : ev ≠ [])
    (hwf : ∀ e ∈ ev, evidence_floor < e.similarity) :
    evidence_floor < best_similarity ev := by
  obtain ⟨e, he, hb⟩ := best_similarity_mem hev
  rw [hb]
  exact hwf e he

lemma coverage_pre_le_one {c : Competency} {ev : List Evidence} {m : CompMatch}
    (h : scoreComp c ev = some m) : m.coverage ≤ 1 := by
  rw [scoreComp_coverage h]
  split
  · exact le_refl 1
  · rename_i hlt
    exact le_of_lt ((div_lt_one (match_threshold_pos c)).mpr (not_le.mp hlt))

lemma coverage_pre_nonneg {c : Competency} {ev : List Evidence} {m : CompMatch}
    (h : scoreComp c ev = some m) (hb : 0 ≤ best_similarity ev) : 0 ≤ m.coverage := by
  rw [scoreComp_coverage h]
  split
  · exact zero_le_one
  · exact div_nonneg hb (le_of_lt (match_threshold_pos c))

lemma final_coverage_le_one (c : Competency) (ev : List Evidence) :
    final_coverage c ev ≤ 1 := by
  cases h : scoreComp c ev with
  | none => rw [final_coverage_none h]; exact zero_le_one
  | some m =>
    rw [final_coverage_some h, applyPenalty_coverage]
    have hle := coverage_pre_le_one h
    split
    · have : m.coverage * skill_only_coverage_penalty ≤ 1 * skill_only_coverage_penalty :=
        mul_le_mul_of_nonneg_right hle (by norm_num [skill_only_coverage_penalty])
      calc m.coverage * skill_only_coverage_penalty ≤ 1 * skill_only_coverage_penalty := this
        _ ≤ 1 := by norm_num [skill_only_coverage_penalty]
    · exact hle

lemma final_coverage_nonneg (c : Competency) (ev : List Evidence)
    (hwf : ∀ e ∈ ev, evidence_floor < e.similarity) : 0 ≤ final_coverage c ev := by
  cases h : scoreComp c ev with
  | none => rw [final_coverage_none h]
  | some m =>
    have hev : ev ≠ [] := by
      intro hnil
      rw [(scoreComp_eq_none_iff c ev).mpr hnil] at h
      cases h
    have hb : 0 ≤ best_similarity ev := by
      have := best_above_floor hev hwf
      have hfl : (0:ℚ) < evidence_floor := by norm_num [evidence_floor]
      linarith
    have h0 := coverage_pre_nonneg h hb
    rw [final_coverage_some h, applyPenalty_coverage]
    split
    · exact mul_nonneg h0 (by norm_num [skill_only_coverage_penalty])
    · exact h0

/-! ### Claim C3: the threshold rule -/

/-- Claim C3.  For every competency processed by the scoring engine: with retained
evidence whose best similarity is at or above the competency's threshold,
the threshold step assigns coverage 1 and status matched; with retained
evidence strictly below the threshold it assigns coverage
best over threshold and status partial; and with no retained evidence the
competency is recorded as missing with coverage 0. -/
theorem scoring_threshold_rule (c : Competency) (ev : List Evidence) :
    (∀ m, scoreComp c ev = some m →
      (c.match_threshold ≤ best_similarity ev →
        m.coverage = 1 ∧ m.status = MatchStatus.matched) ∧
      (best_similarity ev < c.match_threshold →
        m.coverage = best_similarity ev / c.match_threshold ∧
          m.status = MatchStatus.partialMatch)) ∧
    ((∃ m, scoreComp c ev = some m) ↔ ev ≠ []) ∧
    (comp_status c ev = MatchStatus.missing ↔ ev = []) ∧
    (ev = [] → final_coverage c ev = 0) := by
  refine ⟨?_, ?_, ?_, ?_⟩
  · intro m hm
    constructor
    · intro hle
      rw [scoreComp_coverage hm, scoreComp_status hm, if_pos hle, if_pos hle]
      exact ⟨rfl, rfl⟩
    · intro hlt
      rw [scoreComp_coverage hm, scoreComp_status hm, if_neg (not_le.mpr hlt),
        if_neg (not_le.mpr hlt)]
      exact ⟨rfl, rfl⟩
  · constructor
    · rintro ⟨m, hm⟩ hnil
      rw [(scoreComp_eq_none_iff c ev).mpr hnil] at hm
      cases hm
    · intro hev
      cases h : scoreComp c ev with
      | none => exact absurd ((scoreComp_eq_none_iff c ev).mp h) hev
      | some m => exact ⟨m, rfl⟩
  · cases h : scoreComp c ev with
    | none =>
      rw [comp_status_none h]
      simpa using (scoreComp_eq_none_iff c ev).mp h
    | some m =>
      rw [comp_status_some h]
      have hev : ¬ ev = [] := by
        intro hnil
        rw [(scoreComp_eq_none_iff c ev).mpr hnil] at h
        cases h
      have hst := scoreComp_status h
      constructor
      · intro hmiss
        rw [hmiss] at hst
        split at hst <;> cases hst
      · intro hnil
        exact absurd hnil hev
  · intro hnil
    exact final_coverage_none ((scoreComp_eq_none_iff c ev).mpr hnil)

/-- Concrete inputs exercising the threshold rule. -/
def compGeneral : Competency :=
  { name := "Python Development", description := "build backend services",
    category := Category.GENERAL, importance := Importance.required }

/-- A retained evidence item backed by a Project node. -/
def evProject : Evidence :=
  { node_id := 2, node_type := NodeType.Project, similarity := 1/2,
    text := "Chat platform" }

theorem scoring_threshold_rule_witness :
    ∃ m, scoreComp compGeneral [evProject] = some m ∧
      m.coverage = 1 ∧ m.status = MatchStatus.matched := by
  have h := scoring_threshold_rule compGeneral [evProject]
  obtain ⟨m, hm⟩ := h.2.1.mpr (by simp)
  refine ⟨m, hm, (h.1 m hm).1 ?_⟩
  norm_num [best_similarity, compGeneral, evProject, Competency.match_threshold,
    category_threshold]

/-! ### Claim C4: the skill-only evidence-quality penalty -/

/-- Claim C4.  For every matched or partial competency whose retained
evidence items are all Skill nodes, the penalty step multiplies the
coverage by 7/10; in particular a skill-only competency whose best
similarity is at or above its threshold ends with coverage 7/10, not 1. -/
theorem skill_only_penalty_rule (c : Competency) (ev : List Evidence) (m : CompMatch)
    (hm : scoreComp c ev = some m)
    (hall : ∀ e ∈ ev, e.node_type = NodeType.Skill) :
    final_coverage c ev = m.coverage * skill_only_coverage_penalty ∧
    (c.match_threshold ≤ best_similarity ev →
      final_coverage c ev = skill_only_coverage_penalty) := by
  have hev3 : ∀ e ∈ m.evidence, e.node_type = NodeType.Skill := by
    intro e he
    rw [scoreComp_evidence hm] at he
    exact hall e ((List.take_sublist 3 ev).mem he)
  have hflag : m.evidence.all (fun e => e.node_type == NodeType.Skill) = true := by
    rw [List.all_eq_true]
    intro e he
    exact beq_iff_eq.mpr (hev3 e he)
  have hcov : final_coverage c ev = m.coverage * skill_only_coverage_penalty := by
    rw [final_coverage_some hm, applyPenalty_coverage, if_pos hflag]
  refine ⟨hcov, fun hle => ?_⟩
  have hcov1 : m.coverage = 1 := by
    rw [scoreComp_coverage hm, if_pos hle]
  rw [hcov, hcov1, one_mul]

/-- Concrete skill-only inputs for the penalty rule. -/
def compML : Competency :=
  { name := "Machine Learning", description := "train and deploy ml models",
    category := Category.ML_AI, importance := Importance.required }

/-- A retained evidence item that is a bare Skill node. -/
def evSkillOnly : Evidence :=
  { node_id := 3, node_type := NodeType.Skill, similarity := 2/5,
    text := "Machine Learning skill" }

theorem skill_only_penalty_rule_witness :
    final_coverage compML [evSkillOnly] = skill_only_coverage_penalty := by
  have hsome : ∃ m, scoreComp compML [evSkillOnly] = some m := by
    cases h : scoreComp compML [evSkillOnly] with
    | none => exact absurd ((scoreComp_eq_none_iff _ _).mp h) (by simp)
    | some m => exact ⟨m, rfl⟩
  obtain ⟨m, hm⟩ := hsome
  refine (skill_only_penalty_rule compML [evSkillOnly] m hm ?_).2 ?_
  · intro e he
    simp only [List.mem_singleton] at he
    subst he
    rfl
  · norm_num [best_similarity, compML, evSkillOnly, Competency.match_threshold,
      category_threshold]

/-! ### Claim C5: skill edge weights of the graph builder -/

/-- Claim C5.  The weight of a skill edge is the clamped product of the base
weight, the proficiency multiplier and the experience multiplier; it always
lies in the interval zero to one, and it is zero for zero years of
experience regardless of the proficiency level. -/
theorem skill_edge_weight_bounds (p : Proficiency) (years : ℕ) :
    0 ≤ skill_weight p years ∧ skill_weight p years ≤ 1 ∧ skill_weight p 0 = 0 := by
  refine ⟨clamp01_nonneg _, clamp01_le_one _, ?_⟩
  cases p <;>
    norm_num [skill_weight, clamp01, base_weight, proficiency_multiplier,
      experience_multiplier]

/-! ### Claim C1: the accumulation formula of the match strength -/

lemma map_sum_sub {α : Type} (l : List α) (f g : α → ℚ) :
    (l.map fun x => f x - g x).sum = (l.map f).sum - (l.map g).sum := by
  induction l with
  | nil => simp
  | cons a t ih =>
    simp only [List.map_cons, List.sum_cons, ih]
    ring

lemma mem_of_mem_evidenced {pairs : List CompEvidence} {p : CompEvidence}
    (h : p ∈ evidenced pairs) : p ∈ pairs :=
  List.mem_of_mem_filter h

lemma snd_ne_nil_of_mem_evidenced {pairs : List CompEvidence} {p : CompEvidence}
    (h : p ∈ evidenced pairs) : p.2 ≠ [] := by
  have := List.of_mem_filter h
  simpa using this

lemma evidenced_possible_pos {pairs : List CompEvidence}
    (h : evidenced pairs ≠ []) :
    0 < ((evidenced pairs).map fun p => points_possible p.1).sum := by
  apply sum_pos_of_pos
  · simp [h]
  · intro x hx
    obtain ⟨p, _, rfl⟩ := List.mem_map.mp hx
    exact points_possible_pos p.1

/-- Modelled from the spec sentence of claim C1: the match strength with
every competency of the job accumulating into both sums, a missing
competency contributing its weighted points to points possible and
coverage 0 to points earned. -/
def claimed_match_strength (pairs : List CompEvidence) : ℚ :=
  if pairs = [] then 0
  else ((pairs.map fun p => points_possible p.1 * final_coverage p.1 p.2).sum) /
    ((pairs.map fun p => points_possible p.1).sum)

lemma project_ne_skill : NodeType.Project = NodeType.Skill ↔ False := by
  constructor
  · intro h
    cases h
  · intro h
    cases h

/-- Counterexample to claim C1 as stated: a job with one fully matched
competency and one competency without retained evidence.  The code skips
the missing competency in both accumulators and returns 1, while the
formula of the claim would accumulate its weighted points into points
possible and return 4/9. -/
theorem match_strength_formula_counterexample :
    score_job [(compGeneral, [evProject]), (compML, [])] = 1 ∧
    claimed_match_strength [(compGeneral, [evProject]), (compML, [])] = 4/9 ∧
    score_job [(compGeneral, [evProject]), (compML, [])] ≠
      claimed_match_strength [(compGeneral, [evProject]), (compML, [])] := by
  refine ⟨?_, ?_, ?_⟩ <;>
    · simp [project_ne_skill, score_job, claimed_match_strength, processComps, scoreComp,
        applyPenalty, final_coverage, match_strength_of, total_possible, total_earned,
        points_possible, best_similarity, compGeneral, compML, evProject,
        Competency.weight, Competency.match_threshold, Competency.boost,
        category_weight, category_threshold, skill_only_coverage_penalty]
      try norm_num [project_ne_skill, score_job, claimed_match_strength, processComps, scoreComp,
        applyPenalty, final_coverage, match_strength_of, total_possible, total_earned,
        points_possible, best_similarity, compGeneral, compML, evProject,
        Competency.weight, Competency.match_threshold, Competency.boost,
        category_weight, category_threshold, skill_only_coverage_penalty]

/-- Claim C1 (amended).  The match strength is points earned over points
possible accumulated over the competencies that have retained evidence
(with the importance multiplier 3/2 for required competencies and 1 for
optional ones, and each competency contributing weight times multiplier to
points possible and that product times its final coverage to points
earned); competencies without retained evidence contribute to neither sum,
and the match strength is 0 when no competency has retained evidence, in
particular when the competency list is empty. -/
lemma score_job_evidenced_ratio {pairs : List CompEvidence}
    (hne : evidenced pairs ≠ []) :
    score_job pairs =
      ((evidenced pairs).map fun p => points_possible p.1 * final_coverage p.1 p.2).sum /
        ((evidenced pairs).map fun p => points_possible p.1).sum := by
  unfold score_job match_strength_of
  rw [total_possible_processComps, total_earned_processComps,
    if_pos (evidenced_possible_pos hne)]

lemma score_job_all_missing {pairs : List CompEvidence}
    (hnil : evidenced pairs = []) : score_job pairs = 0 := by
  unfold score_job match_strength_of
  rw [total_possible_processComps, hnil]
  simp

theorem match_strength_formula (pairs : List CompEvidence) :
    (evidenced pairs ≠ [] →
      score_job pairs =
        ((evidenced pairs).map fun p => points_possible p.1 * final_coverage p.1 p.2).sum /
          ((evidenced pairs).map fun p => points_possible p.1).sum) ∧
    (evidenced pairs = [] → score_job pairs = 0) :=
  ⟨fun hne => score_job_evidenced_ratio hne, fun hnil => score_job_all_missing hnil⟩

theorem match_strength_formula_witness :
    score_job [(compGeneral, [evProject])] =
      ((evidenced [(compGeneral, [evProject])]).map
        fun p => points_possible p.1 * final_coverage p.1 p.2).sum /
        ((evidenced [(compGeneral, [evProject])]).map fun p => points_possible p.1).sum :=
  (match_strength_formula [(compGeneral, [evProject])]).1 (by simp [evidenced])

/-! ### Claim C2: bounds of the match strength and the full-coverage criterion -/

/-- A second competency without retained evidence, platform bucket. -/
def compPlatform : Competency :=
  { name := "Kubernetes", description := "operate container platforms",
    category := Category.PLATFORM, importance := Importance.required }

/-- Counterexample to claim C2 as stated: a job whose match strength is 1
although one of its competencies has no retained evidence and hence
coverage 0, because competencies without evidence are skipped by both
accumulators. -/
theorem match_strength_one_counterexample :
    score_job [(compGeneral, [evProject]), (compPlatform, [])] = 1 ∧
    final_coverage compPlatform [] = 0 ∧
    final_coverage compPlatform [] ≠ 1 := by
  refine ⟨?_, ?_, ?_⟩ <;>
    · simp [project_ne_skill, score_job, processComps, scoreComp, applyPenalty,
        final_coverage, match_strength_of, total_possible, total_earned, points_possible,
        best_similarity, compGeneral, compPlatform, evProject,
        Competency.weight, Competency.match_threshold, Competency.boost,
        category_weight, category_threshold, skill_only_coverage_penalty]
      try norm_num [project_ne_skill, score_job, processComps, scoreComp, applyPenalty,
        final_coverage, match_strength_of, total_possible, total_earned, points_possible,
        best_similarity, compGeneral, compPlatform, evProject,
        Competency.weight, Competency.match_threshold, Competency.boost,
        category_weight, category_threshold, skill_only_coverage_penalty]

/-- Claim C2 (amended).  For evidence lists produced by the matcher (every
retained similarity above the hard floor) the match strength always lies
in the interval zero to one, and it equals 1 exactly when at least one
competency has retained evidence and every competency with retained
evidence has final coverage 1. -/
theorem match_strength_bounds (pairs : List CompEvidence)
    (hwf : ∀ p ∈ pairs, ∀ e ∈ p.2, evidence_floor < e.similarity) :
    0 ≤ score_job pairs ∧ score_job pairs ≤ 1 ∧
    (score_job pairs = 1 ↔
      (evidenced pairs ≠ [] ∧ ∀ p ∈ evidenced pairs, final_coverage p.1 p.2 = 1)) := by
  have hcov0 : ∀ p ∈ evidenced pairs, 0 ≤ final_coverage p.1 p.2 := fun p hp =>
    final_coverage_nonneg p.1 p.2 (hwf p (mem_of_mem_evidenced hp))
  have hcov1 : ∀ p ∈ evidenced pairs, final_coverage p.1 p.2 ≤ 1 := fun p hp =>
    final_coverage_le_one p.1 p.2
  have hterm : ∀ p ∈ evidenced pairs,
      points_possible p.1 * final_coverage p.1 p.2 ≤ points_possible p.1 := fun p hp =>
    mul_le_of_le_one_right (le_of_lt (points_possible_pos p.1)) (hcov1 p hp)
  have hTP : ((evidenced pairs).map fun p => points_possible p.1 * final_coverage p.1 p.2).sum ≤
      ((evidenced pairs).map fun p => points_possible p.1).sum :=
    map_sum_le hterm
  have hT0 : 0 ≤ ((evidenced pairs).map fun p => points_possible p.1 * final_coverage p.1 p.2).sum := by
    apply sum_nonneg_of_nonneg
    intro x hx
    obtain ⟨p, hp, rfl⟩ := List.mem_map.mp hx
    exact mul_nonneg (le_of_lt (points_possible_pos p.1)) (hcov0 p hp)
  by_cases hne : evidenced pairs = []
  · rw [score_job_all_missing hne]
    refine ⟨le_refl 0, zero_le_one, ?_⟩
    constructor
    · intro h01
      exact absurd h01 (by norm_num)
    · rintro ⟨hcontra, -⟩
      exact absurd hne hcontra
  · have hP := evidenced_possible_pos hne
    rw [score_job_evidenced_ratio hne]
    refine ⟨div_nonneg hT0 (le_of_lt hP), (div_le_one hP).mpr hTP, ?_⟩
    constructor
    · intro h1
      refine ⟨hne, ?_⟩
      have hTeqP : ((evidenced pairs).map fun p => points_possible p.1 * final_coverage p.1 p.2).sum =
          ((evidenced pairs).map fun p => points_possible p.1).sum := by
        field_simp at h1
        linarith [h1]
      have hdiff : ((evidenced pairs).map
          fun p => points_possible p.1 - points_possible p.1 * final_coverage p.1 p.2).sum = 0 := by
        rw [map_sum_sub]
        linarith
      have hall := sum_all_zero (l := (evidenced pairs).map
          fun p => points_possible p.1 - points_possible p.1 * final_coverage p.1 p.2)
        (by
          intro x hx
          obtain ⟨p, hp, rfl⟩ := List.mem_map.mp hx
          have := hterm p hp
          linarith) hdiff
      intro p hp
      have hz := hall _ (List.mem_map.mpr ⟨p, hp, rfl⟩)
      have hppne : points_possible p.1 ≠ 0 := ne_of_gt (points_possible_pos p.1)
      have : points_possible p.1 * (1 - final_coverage p.1 p.2) = 0 := by ring_nf; linarith [hz]
      rcases mul_eq_zero.mp this with hc | hc
      · exact absurd hc hppne
      · linarith
    · rintro ⟨-, hall⟩
      have hmap : ((evidenced pairs).map fun p => points_possible p.1 * final_coverage p.1 p.2) =
          ((evidenced pairs).map fun p => points_possible p.1) := by
        apply List.map_congr_left
        intro p hp
        rw [hall p hp, mul_one]
      rw [hmap, div_self (ne_of_gt hP)]

theorem match_strength_bounds_witness :
    0 ≤ score_job [(compGeneral, [evProject])] ∧
      score_job [(compGeneral, [evProject])] ≤ 1 ∧
      (score_job [(compGeneral, [evProject])] = 1 ↔
        (evidenced [(compGeneral, [evProject])] ≠ [] ∧
          ∀ p ∈ evidenced [(compGeneral, [evProject])], final_coverage p.1 p.2 = 1)) := by
  refine match_strength_bounds [(compGeneral, [evProject])] ?_
  intro p hp e he
  simp only [List.mem_singleton] at hp
  subst hp
  simp only [List.mem_singleton] at he
  subst he
  norm_num [evidence_floor, evProject]

/-! ### Claim C6: the evidence matcher -/

lemma mem_collect_evidence_floor {sim : GraphNode → ℚ} {nodes : List GraphNode} :
    ∀ e ∈ collect_evidence sim nodes, evidence_floor < e.similarity := by
  induction nodes with
  | nil => intro e he; cases he
  | cons n ns ih =>
    intro e he
    simp only [collect_evidence] at he
    split at he
    · rcases List.mem_cons.mp he with rfl | hmem
      · assumption
      · exact ih e hmem
    · exact ih e he

lemma collect_evidence_eq_filter (sim : GraphNode → ℚ) (nodes : List GraphNode) :
    collect_evidence sim nodes =
      (nodes.filter fun n => decide (evidence_floor < sim n)).map
        fun n => { node_id := n.nodeId, node_type := n.nodeType, similarity := sim n,
                   text := n.embedding_text } := by
  induction nodes with
  | nil => rfl
  | cons n ns ih =>
    simp only [collect_evidence, List.filter_cons]
    by_cases h : evidence_floor < sim n
    · rw [if_pos h, if_pos (by simpa using h), List.map_cons, ih]
    · rw [if_neg h, if_neg (by simpa using h), ih]

/-- Claim C6.  The matcher retains exactly the embedded nodes whose
similarity exceeds the floor of 1/4, returns them sorted by descending
similarity, keeps at most the top 5, and the best similarity of the
returned list is the maximum over all retained evidence, 0 when nothing is
retained. -/
theorem evidence_matcher_spec (sim : GraphNode → ℚ) (nodes : List GraphNode) :
    collect_evidence sim nodes =
      (nodes.filter fun n => decide (evidence_floor < sim n)).map
        (fun n => { node_id := n.nodeId, node_type := n.nodeType, similarity := sim n,
                    text := n.embedding_text }) ∧
    List.Sorted sim_desc (find_evidence_matches sim nodes) ∧
    (find_evidence_matches sim nodes).length = min 5 (collect_evidence sim nodes).length ∧
    (∀ e ∈ find_evidence_matches sim nodes,
      e ∈ collect_evidence sim nodes ∧ evidence_floor < e.similarity) ∧
    best_similarity (find_evidence_matches sim nodes) =
      best_similarity (collect_evidence sim nodes) ∧
    best_similarity ([] : List Evidence) = 0 := by
  have hperm := List.perm_insertionSort sim_desc (collect_evidence sim nodes)
  have hsorted := List.sorted_insertionSort sim_desc (collect_evidence sim nodes)
  refine ⟨collect_evidence_eq_filter sim nodes, ?_, ?_, ?_, ?_, rfl⟩
  · exact List.Pairwise.sublist
      (List.take_sublist 5 (List.insertionSort sim_desc (collect_evidence sim nodes))) hsorted
  · unfold find_evidence_matches
    rw [List.length_take, hperm.length_eq]
  · intro e he
    have hmem : e ∈ collect_evidence sim nodes :=
      hperm.mem_iff.mp ((List.take_sublist 5 _).mem he)
    exact ⟨hmem, mem_collect_evidence_floor e hmem⟩
  · unfold find_evidence_matches
    rw [best_similarity_take_of_sorted hsorted (by norm_num), best_similarity_perm hperm]

/-- Concrete nodes for the matcher: one above and one below the floor. -/
def simTwoNodes : GraphNode → ℚ := fun n => if n.nodeId = 1 then 1/2 else 1/10

/-- Two embedded graph nodes for the matcher witness. -/
def twoNodes : List GraphNode :=
  [{ nodeId := 1, nodeType := NodeType.Skill, embedding_text := "Python skill" },
   { nodeId := 2, nodeType := NodeType.Tool, embedding_text := "Excel tool" }]

theorem evidence_matcher_spec_witness :
    List.Sorted sim_desc (find_evidence_matches simTwoNodes twoNodes) ∧
    best_similarity (find_evidence_matches simTwoNodes twoNodes) =
      best_similarity (collect_evidence simTwoNodes twoNodes) :=
  ⟨(evidence_matcher_spec simTwoNodes twoNodes).2.1,
   (evidence_matcher_spec simTwoNodes twoNodes).2.2.2.2.1⟩

/-! ### Claim C7: feedback weight adaptation -/

/-- A recruiter's feedback decision. -/
inductive Decision
  | SHORTLIST
  | INTERVIEW
  | HIRE
  | REJECT
  deriving DecidableEq, Repr

/-- The multiplicative factor applied to every edge weight on an evidence
path: one plus the delta of the decision, one minus a tenth for a reject. -/
def feedback_factor : Decision → ℚ
  | .SHORTLIST => 1 + 10/100
  | .INTERVIEW => 1 + 20/100
  | .HIRE => 1 + 30/100
  | .REJECT => 1 - 10/100

/-- Adjust one edge weight from feedback, clamping the result to the unit
interval. -/
def adjust_weight (d : Decision) (w : ℚ) : ℚ := clamp01 (w * feedback_factor d)

/-- Adjust every edge weight along an evidence path. -/
def adjust_path (d : Decision) (ws : List ℚ) : List ℚ := ws.map (adjust_weight d)

/-- Counterexample to claim C7 as stated: at the spec's own starting weight
8/10, one hire feedback already clamps to 1, so a second application
yields the same weight, not a strictly larger one. -/
theorem feedback_strict_growth_counterexample :
    adjust_weight Decision.HIRE (8/10) = 1 ∧
    adjust_weight Decision.HIRE (adjust_weight Decision.HIRE (8/10)) = 1 ∧
    ¬ adjust_weight Decision.HIRE (8/10) <
        adjust_weight Decision.HIRE (adjust_weight Decision.HIRE (8/10)) := by
  refine ⟨?_, ?_, ?_⟩ <;>
    norm_num [adjust_weight, feedback_factor, clamp01, min_def, max_def]

/-- Claim C7 (amended).  Every adjusted weight is the clamped product of the
old weight and the decision's factor, hence always within the unit
interval, on every edge of the path; applying hire feedback twice yields a
weight at least as large as applying it once, and strictly larger exactly
while the starting weight is positive and one application stays below the
clamp. -/
theorem feedback_adjustment_rules :
    (∀ d w, 0 ≤ adjust_weight d w ∧ adjust_weight d w ≤ 1) ∧
    (∀ d ws, ∀ w ∈ adjust_path d ws, 0 ≤ w ∧ w ≤ 1) ∧
    (∀ w : ℚ, 0 ≤ w → w ≤ 1 →
      adjust_weight Decision.HIRE w ≤
        adjust_weight Decision.HIRE (adjust_weight Decision.HIRE w)) ∧
    (∀ w : ℚ,
      adjust_weight Decision.HIRE w <
          adjust_weight Decision.HIRE (adjust_weight Decision.HIRE w) ↔
        (0 < w ∧ w * feedback_factor Decision.HIRE < 1)) := by
  have hbounds : ∀ d w, 0 ≤ adjust_weight d w ∧ adjust_weight d w ≤ 1 := fun d w =>
    ⟨clamp01_nonneg _, clamp01_le_one _⟩
  have hfac : feedback_factor Decision.HIRE = 13/10 := by norm_num [feedback_factor]
  refine ⟨hbounds, ?_, ?_, ?_⟩
  · intro d ws w hw
    obtain ⟨v, _, rfl⟩ := List.mem_map.mp hw
    exact hbounds d v
  · intro w hw0 hw1
    have honce : adjust_weight Decision.HIRE w = min (w * (13/10)) 1 := by
      rw [adjust_weight, hfac, clamp01, max_eq_left (by positivity)]
    set u := adjust_weight Decision.HIRE w with hu
    have hu0 : 0 ≤ u := (hbounds _ w).1
    have hu1 : u ≤ 1 := (hbounds _ w).2
    have htwice : adjust_weight Decision.HIRE u = min (u * (13/10)) 1 := by
      rw [adjust_weight, hfac, clamp01, max_eq_left (by positivity)]
    rw [htwice]
    refine le_min ?_ hu1
    nlinarith
  · intro w
    rw [hfac]
    constructor
    · intro hstrict
      by_cases hw : 0 < w
      · refine ⟨hw, ?_⟩
        by_contra hge
        push_neg at hge
        have honce : adjust_weight Decision.HIRE w = 1 := by
          rw [adjust_weight, hfac, clamp01, max_eq_left (by positivity),
            min_eq_right hge]
        have hone : adjust_weight Decision.HIRE 1 = 1 := by
          rw [adjust_weight, hfac, clamp01]
          norm_num [max_def, min_def]
        rw [honce, hone] at hstrict
        exact lt_irrefl 1 hstrict
      · push_neg at hw
        have hnp : w * (13/10) ≤ 0 := by nlinarith
        have honce : adjust_weight Decision.HIRE w = 0 := by
          rw [adjust_weight, hfac, clamp01, max_eq_right hnp, min_eq_left zero_le_one]
        have hzero : adjust_weight Decision.HIRE 0 = 0 := by
          rw [adjust_weight, hfac, clamp01]
          norm_num [max_def, min_def]
        rw [honce, hzero] at hstrict
        exact absurd hstrict (lt_irrefl 0)
    · rintro ⟨hw0, hlt⟩
      have honce : adjust_weight Decision.HIRE w = w * (13/10) := by
        rw [adjust_weight, hfac, clamp01, max_eq_left (by positivity),
          min_eq_left (le_of_lt hlt)]
      have htwice : adjust_weight Decision.HIRE (adjust_weight Decision.HIRE w) =
          min (w * (13/10) * (13/10)) 1 := by
        rw [honce, adjust_weight, hfac, clamp01, max_eq_left (by positivity)]
      rw [htwice, honce]
      refine lt_min ?_ hlt
      nlinarith

theorem feedback_adjustment_rules_witness :
    (0 ≤ adjust_weight Decision.REJECT (1/2) ∧ adjust_weight Decision.REJECT (1/2) ≤ 1) ∧
    (0 ≤ adjust_weight Decision.HIRE (1/2) ∧ adjust_weight Decision.HIRE (1/2) ≤ 1) ∧
    adjust_weight Decision.HIRE (1/2) ≤
      adjust_weight Decision.HIRE (adjust_weight Decision.HIRE (1/2)) ∧
    adjust_weight Decision.HIRE (1/2) <
      adjust_weight Decision.HIRE (adjust_weight Decision.HIRE (1/2)) :=
  ⟨feedback_adjustment_rules.1 Decision.REJECT (1/2),
   feedback_adjustment_rules.1 Decision.HIRE (1/2),
   feedback_adjustment_rules.2.2.1 (1/2) (by norm_num) (by norm_num),
   (feedback_adjustment_rules.2.2.2 (1/2)).mpr
     ⟨by norm_num, by norm_num [feedback_factor]⟩⟩

/-! ### Claim C8: the application-preview cache -/

/-- One cached preview row: the pair key, the cached summary value, and the
two version tokens recorded at compute time. -/
structure PreviewRow where
  candidate_id : ℕ
  job_id : ℕ
  match_strength : ℚ
  candidate_updated_at : ℕ
  job_updated_at : ℕ
  deriving DecidableEq, Repr

/-- Key test: does the row belong to the candidate and job pair. -/
def row_key (r : PreviewRow) (cid jid : ℕ) : Bool :=
  r.candidate_id == cid && r.job_id == jid

/-- Find the cached row of the pair. -/
def lookup_preview (db : List PreviewRow) (cid jid : ℕ) : Option PreviewRow :=
  db.find? fun r => row_key r cid jid

/-- Upsert semantics of the cache table: replace the first row of the pair,
append only when the pair has no row yet. -/
def update_or_create : List PreviewRow → PreviewRow → List PreviewRow
  | [], row => [row]
  | r :: rest, row =>
    if row_key r row.candidate_id row.job_id then row :: rest
    else r :: update_or_create rest row

/-- The cache invalidation test: refresh on an explicit request, a missing
row, or a version token older than the current one. -/
def needs_refresh (preview : Option PreviewRow) (force : Bool) (ct jt : ℕ) : Bool :=
  force || preview.isNone ||
    match preview with
    | none => false
    | some p => decide (p.candidate_updated_at < ct) || decide (p.job_updated_at < jt)

/-- Look up the cached preview of the pair; on a miss or stale entry store
the freshly computed value with the current tokens, else return the cached
row untouched.  The returned Boolean records whether a recomputation
happened. -/
def get_or_compute_preview (db : List PreviewRow) (cid jid : ℕ) (force : Bool)
    (ct jt : ℕ) (fresh : ℚ) : PreviewRow × Bool × List PreviewRow :=
  if needs_refresh (lookup_preview db cid jid) force ct jt then
    ({ candidate_id := cid, job_id := jid, match_strength := fresh,
       candidate_updated_at := ct, job_updated_at := jt }, true,
     update_or_create db
       { candidate_id := cid, job_id := jid, match_strength := fresh,
         candidate_updated_at := ct, job_updated_at := jt })
  else
    ((lookup_preview db cid jid).getD
      { candidate_id := cid, job_id := jid, match_strength := fresh,
        candidate_updated_at := ct, job_updated_at := jt }, false, db)

lemma needs_refresh_eq_false_iff (preview : Option PreviewRow) (force : Bool)
    (ct jt : ℕ) :
    needs_refresh preview force ct jt = false ↔
      (force = false ∧ ∃ p, preview = some p ∧
        ct ≤ p.candidate_updated_at ∧ jt ≤ p.job_updated_at) := by
  cases preview with
  | none => simp [needs_refresh]
  | some p =>
    simp only [needs_refresh, Option.isNone_some, Bool.or_eq_false_iff,
      decide_eq_false_iff_not, not_lt, Option.some_inj]
    aesop

lemma row_key_self (row : PreviewRow) : row_key row row.candidate_id row.job_id = true := by
  simp [row_key]

lemma update_or_create_count (db : List PreviewRow) (row : PreviewRow)
    (h : (db.filter fun r => row_key r row.candidate_id row.job_id).length ≤ 1) :
    ((update_or_create db row).filter
      fun r => row_key r row.candidate_id row.job_id).length = 1 := by
  induction db with
  | nil => simp [update_or_create, row_key_self]
  | cons r rest ih =>
    simp only [update_or_create]
    by_cases hk : row_key r row.candidate_id row.job_id = true
    · rw [if_pos hk]
      simp only [List.filter_cons, hk, if_true, List.length_cons] at h
      have hrest : (rest.filter fun q => row_key q row.candidate_id row.job_id).length = 0 := by
        omega
      simp [List.filter_cons, row_key_self, hrest]
    · rw [if_neg hk]
      rw [Bool.not_eq_true] at hk
      simp only [List.filter_cons, hk, Bool.false_eq_true, if_false] at h ⊢
      exact ih h

/-- Claim C8.  The cache returns its row without recomputation exactly when
refresh is not forced and both recorded version tokens are at least the
current ones; in that case the table is untouched and the cached row is
returned.  Otherwise the value is recomputed, the returned row carries the
fresh summary and the current tokens, and the single row of the pair is
overwritten rather than appended: under the one-row-per-pair invariant the
pair still has exactly one row after a recomputation. -/
theorem preview_cache_rules (db : List PreviewRow) (cid jid : ℕ) (force : Bool)
    (ct jt : ℕ) (fresh : ℚ) :
    ((get_or_compute_preview db cid jid force ct jt fresh).2.1 = false ↔
      (force = false ∧ ∃ p, lookup_preview db cid jid = some p ∧
        ct ≤ p.candidate_updated_at ∧ jt ≤ p.job_updated_at)) ∧
    ((get_or_compute_preview db cid jid force ct jt fresh).2.1 = false →
      (∃ p, lookup_preview db cid jid = some p ∧
        (get_or_compute_preview db cid jid force ct jt fresh).1 = p) ∧
      (get_or_compute_preview db cid jid force ct jt fresh).2.2 = db) ∧
    ((get_or_compute_preview db cid jid force ct jt fresh).2.1 = true →
      (get_or_compute_preview db cid jid force ct jt fresh).1 =
        { candidate_id := cid, job_id := jid, match_strength := fresh,
          candidate_updated_at := ct, job_updated_at := jt } ∧
      (get_or_compute_preview db cid jid force ct jt fresh).2.2 =
        update_or_create db
          { candidate_id := cid, job_id := jid, match_strength := fresh,
            candidate_updated_at := ct, job_updated_at := jt }) ∧
    ((db.filter fun r => row_key r cid jid).length ≤ 1 →
      (get_or_compute_preview db cid jid force ct jt fresh).2.1 = true →
      ((get_or_compute_preview db cid jid force ct jt fresh).2.2.filter
        fun r => row_key r cid jid).length = 1) := by
  cases hB : needs_refresh (lookup_preview db cid jid) force ct jt with
  | false =>
    obtain ⟨hf, p, hp, hct, hjt⟩ := (needs_refresh_eq_false_iff _ force ct jt).mp hB
    have hgoc : get_or_compute_preview db cid jid force ct jt fresh = (p, false, db) := by
      unfold get_or_compute_preview
      rw [if_neg (by rw [hB]; exact Bool.false_ne_true), hp]
      rfl
    rw [hgoc]
    exact ⟨iff_of_true rfl ⟨hf, p, hp, hct, hjt⟩,
      fun _ => ⟨⟨p, hp, rfl⟩, rfl⟩,
      fun hcontra => Bool.noConfusion hcontra,
      fun _ hcontra => Bool.noConfusion hcontra⟩
  | true =>
    have hgoc : get_or_compute_preview db cid jid force ct jt fresh =
        ({ candidate_id := cid, job_id := jid, match_strength := fresh,
           candidate_updated_at := ct, job_updated_at := jt }, true,
         update_or_create db
           { candidate_id := cid, job_id := jid, match_strength := fresh,
             candidate_updated_at := ct, job_updated_at := jt }) := by
      unfold get_or_compute_preview
      rw [if_pos hB]
    rw [hgoc]
    refine ⟨iff_of_false (fun h => Bool.noConfusion h) ?_,
      fun hcontra => Bool.noConfusion hcontra,
      fun _ => ⟨rfl, rfl⟩,
      fun hinv _ => update_or_create_count db
        { candidate_id := cid, job_id := jid, match_strength := fresh,
          candidate_updated_at := ct, job_updated_at := jt } hinv⟩
    intro hvalid
    have hfalse :=
      (needs_refresh_eq_false_iff (lookup_preview db cid jid) force ct jt).mpr hvalid
    rw [hB] at hfalse
    exact Bool.noConfusion hfalse

/-- A concrete cached row for the cache witness. -/
def row0 : PreviewRow :=
  { candidate_id := 1, job_id := 2, match_strength := 7/10,
    candidate_updated_at := 5, job_updated_at := 5 }

theorem preview_cache_rules_witness :
    (get_or_compute_preview [row0] 1 2 false 3 4 (9/10)).2.1 = false ∧
    ((get_or_compute_preview [row0] 1 2 true 9 9 (9/10)).2.2.filter
      fun r => row_key r 1 2).length = 1 :=
  ⟨(preview_cache_rules [row0] 1 2 false 3 4 (9/10)).1.mpr
      ⟨rfl, row0, rfl, by decide, by decide⟩,
   (preview_cache_rules [row0] 1 2 true 9 9 (9/10)).2.2.2 (by decide) rfl⟩

/-! ### Claim C10: the BrowseJobs match-percent rendering -/

/-- Rounding to the nearest integer, halves up, as the page's rounding
behaves on the values at hand. -/
def jsRound (q : ℚ) : ℤ := ⌊q + 1/2⌋

/-- The match percentage shown on the BrowseJobs apply modal: the preview's
match strength, 0 when absent, clamped to the unit interval, scaled to a
percentage and rounded. -/
def render_match_percent (ms : Option ℚ) : ℤ := jsRound (clamp01 (ms.getD 0) * 100)

/-- The internal graph score shown as a footnote, clamped and rounded the
same way. -/
def render_internal_percent (g : ℚ) : ℤ := jsRound (clamp01 g * 100)

/-- Claim C10.  The displayed match percentage is always an integer between
0 and 100: an absent match strength renders as 0, a nonpositive one as 0, a
strength of one or more as 100, and the internal selected-content score is
clamped and rounded identically. -/
theorem match_percent_display (ms : Option ℚ) (g q : ℚ) :
    (0 ≤ render_match_percent ms ∧ render_match_percent ms ≤ 100) ∧
    render_match_percent none = 0 ∧
    (q ≤ 0 → render_match_percent (some q) = 0) ∧
    (1 ≤ q → render_match_percent (some q) = 100) ∧
    render_internal_percent g = render_match_percent (some g) := by
  have hclamp : ∀ x : ℚ, 0 ≤ clamp01 x ∧ clamp01 x ≤ 1 := fun x =>
    ⟨clamp01_nonneg x, clamp01_le_one x⟩
  refine ⟨⟨?_, ?_⟩, ?_, ?_, ?_, rfl⟩
  · exact Int.le_floor.mpr (by
      have := (hclamp ((ms.getD 0))).1
      push_cast
      linarith)
  · have hup : clamp01 (ms.getD 0) * 100 + 1/2 < ((101 : ℤ) : ℚ) := by
      have := (hclamp ((ms.getD 0))).2
      push_cast
      linarith
    have := Int.floor_lt.mpr hup
    unfold render_match_percent jsRound
    omega
  · unfold render_match_percent jsRound clamp01
    norm_num
  · intro hq
    have hc : clamp01 q = 0 := by
      unfold clamp01
      rw [max_eq_right hq, min_eq_left zero_le_one]
    unfold render_match_percent jsRound
    simp only [Option.getD_some, hc]
    norm_num
  · intro hq
    have hc : clamp01 q = 1 := by
      unfold clamp01
      rw [max_eq_left (le_trans zero_le_one hq), min_eq_right hq]
    unfold render_match_percent jsRound
    simp only [Option.getD_some, hc]
    norm_num

theorem match_percent_display_witness :
    render_match_percent (some (-3/10)) = 0 ∧
    render_match_percent (some (3/2)) = 100 :=
  ⟨(match_percent_display (some (-3/10)) 0 (-3/10)).2.2.1 (by norm_num),
   (match_percent_display (some (3/2)) 0 (3/2)).2.2.2.1 (by norm_num)⟩

/-! ### Claim C9: effect of years of experience on the match strength -/

lemma clamp01_mono {x y : ℚ} (h : x ≤ y) : clamp01 x ≤ clamp01 y :=
  min_le_min (max_le_max h (le_refl 0)) (le_refl 1)

lemma skill_weight_mono (p : Proficiency) {y₁ y₂ : ℕ} (h : y₁ ≤ y₂) :
    skill_weight p y₁ ≤ skill_weight p y₂ := by
  apply clamp01_mono
  apply mul_le_mul_of_nonneg_left
  · unfold experience_multiplier
    refine min_le_min (le_refl 1) ?_
    have hq : (y₁ : ℚ) ≤ (y₂ : ℚ) := by exact_mod_cast h
    linarith
  · cases p <;> norm_num [base_weight, proficiency_multiplier]

lemma scoreComp_some_of_ne_nil {c : Competency} {ev : List Evidence} (hev : ev ≠ []) :
    ∃ m, scoreComp c ev = some m := by
  cases h : scoreComp c ev with
  | none => exact absurd ((scoreComp_eq_none_iff c ev).mp h) hev
  | some m => exact ⟨m, rfl⟩

lemma final_coverage_formula {c : Competency} {ev : List Evidence} (hev : ev ≠ []) :
    final_coverage c ev =
      (if c.match_threshold ≤ best_similarity ev then 1
        else best_similarity ev / c.match_threshold) *
      (if (ev.take 3).all (fun e => e.node_type == NodeType.Skill)
        then skill_only_coverage_penalty else 1) := by
  obtain ⟨m, hm⟩ := scoreComp_some_of_ne_nil hev
  rw [final_coverage_some hm, applyPenalty_coverage, scoreComp_evidence hm,
    scoreComp_coverage hm]
  by_cases hall : (ev.take 3).all (fun e => e.node_type == NodeType.Skill) = true
  · rw [if_pos hall, if_pos hall]
  · rw [if_neg hall, if_neg hall, mul_one]

lemma base_coverage_mono (c : Competency) {b₁ b₂ : ℚ} (hb : b₁ ≤ b₂) :
    (if c.match_threshold ≤ b₁ then (1:ℚ) else b₁ / c.match_threshold) ≤
      (if c.match_threshold ≤ b₂ then 1 else b₂ / c.match_threshold) := by
  by_cases h1 : c.match_threshold ≤ b₁
  · rw [if_pos h1, if_pos (le_trans h1 hb)]
  · rw [if_neg h1]
    by_cases h2 : c.match_threshold ≤ b₂
    · rw [if_pos h2]
      exact le_of_lt ((div_lt_one (match_threshold_pos c)).mpr (not_le.mp h1))
    · rw [if_neg h2]
      have := match_threshold_pos c
      gcongr

lemma final_coverage_mono {c : Competency} {ev₁ ev₂ : List Evidence}
    (h1 : ev₁ ≠ []) (h2 : ev₂ ≠ [])
    (hb : best_similarity ev₁ ≤ best_similarity ev₂)
    (hflag : ((ev₁.take 3).all fun e => e.node_type == NodeType.Skill) =
      ((ev₂.take 3).all fun e => e.node_type == NodeType.Skill)) :
    final_coverage c ev₁ ≤ final_coverage c ev₂ := by
  rw [final_coverage_formula h1, final_coverage_formula h2, hflag]
  refine mul_le_mul_of_nonneg_right (base_coverage_mono c hb) ?_
  split
  · norm_num [skill_only_coverage_penalty]
  · exact zero_le_one

lemma evidenced_append (xs ys : List CompEvidence) :
    evidenced (xs ++ ys) = evidenced xs ++ evidenced ys := by
  unfold evidenced
  exact List.filter_append _ _

lemma evidenced_cons_pos {ev : List Evidence} (c : Competency) (rest : List CompEvidence)
    (hev : ev ≠ []) : evidenced ((c, ev) :: rest) = (c, ev) :: evidenced rest := by
  simp [evidenced, hev]

lemma score_job_mono_in_similarity (c : Competency) (pre post : List CompEvidence)
    {ev₁ ev₂ : List Evidence} (h1 : ev₁ ≠ []) (h2 : ev₂ ≠ [])
    (hb : best_similarity ev₁ ≤ best_similarity ev₂)
    (hflag : ((ev₁.take 3).all fun e => e.node_type == NodeType.Skill) =
      ((ev₂.take 3).all fun e => e.node_type == NodeType.Skill)) :
    score_job (pre ++ (c, ev₁) :: post) ≤ score_job (pre ++ (c, ev₂) :: post) := by
  have he1 : evidenced (pre ++ (c, ev₁) :: post) =
      evidenced pre ++ (c, ev₁) :: evidenced post := by
    rw [evidenced_append, evidenced_cons_pos c post h1]
  have he2 : evidenced (pre ++ (c, ev₂) :: post) =
      evidenced pre ++ (c, ev₂) :: evidenced post := by
    rw [evidenced_append, evidenced_cons_pos c post h2]
  have hne1 : evidenced (pre ++ (c, ev₁) :: post) ≠ [] := by
    rw [he1]
    simp
  have hne2 : evidenced (pre ++ (c, ev₂) :: post) ≠ [] := by
    rw [he2]
    simp
  rw [score_job_evidenced_ratio hne1, score_job_evidenced_ratio hne2, he1, he2]
  have hsamePP :
      ((evidenced pre ++ (c, ev₁) :: evidenced post).map fun p => points_possible p.1).sum =
      ((evidenced pre ++ (c, ev₂) :: evidenced post).map fun p => points_possible p.1).sum := by
    simp [List.map_append, List.sum_append]
  have hP : 0 < ((evidenced pre ++ (c, ev₂) :: evidenced post).map
      fun p => points_possible p.1).sum := by
    apply sum_pos_of_pos
    · simp
    · intro x hx
      obtain ⟨p, _, rfl⟩ := List.mem_map.mp hx
      exact points_possible_pos p.1
  have hE : ((evidenced pre ++ (c, ev₁) :: evidenced post).map
        fun p => points_possible p.1 * final_coverage p.1 p.2).sum ≤
      ((evidenced pre ++ (c, ev₂) :: evidenced post).map
        fun p => points_possible p.1 * final_coverage p.1 p.2).sum := by
    simp only [List.map_append, List.sum_append, List.map_cons, List.sum_cons]
    have hmid : points_possible c * final_coverage c ev₁ ≤
        points_possible c * final_coverage c ev₂ :=
      mul_le_mul_of_nonneg_left (final_coverage_mono h1 h2 hb hflag)
        (le_of_lt (points_possible_pos c))
    linarith
  rw [hsamePP]
  gcongr

/-- Claim C9 (amended).  Increasing years of experience never decreases the
skill's edge weight, and the match strength is monotone in the similarity
the skill's evidence achieves: raising the best similarity of a
competency's retained evidence, holding evidence presence and node types
fixed, never decreases the match strength.  The unqualified claim fails
because the years are interpolated into the embedding text, and the
embedding similarity need not be monotone in that text. -/
theorem years_contribution_monotonicity :
    (∀ (p : Proficiency) (y₁ y₂ : ℕ), y₁ ≤ y₂ →
      skill_weight p y₁ ≤ skill_weight p y₂) ∧
    (∀ (c : Competency) (pre post : List CompEvidence) (ev₁ ev₂ : List Evidence),
      ev₁ ≠ [] → ev₂ ≠ [] →
      best_similarity ev₁ ≤ best_similarity ev₂ →
      ((ev₁.take 3).all fun e => e.node_type == NodeType.Skill) =
        ((ev₂.take 3).all fun e => e.node_type == NodeType.Skill) →
      score_job (pre ++ (c, ev₁) :: post) ≤ score_job (pre ++ (c, ev₂) :: post)) :=
  ⟨fun p y₁ y₂ h => skill_weight_mono p h,
   fun c pre post ev₁ ev₂ h1 h2 hb hflag =>
    score_job_mono_in_similarity c pre post h1 h2 hb hflag⟩

/-- Modelled from the spec: the EmbeddingService similarity is an external
deterministic function of the two texts with values within the cosine
bounds; this is one admissible valuation of it, keyed on the node's
composed embedding text, under which an extra year of experience lowers
the similarity. -/
def exampleSim (_query : String) (node_text : String) : ℚ :=
  if node_text = compose_skill_text "Python" "TECHNICAL" Proficiency.EXPERT 2 then 35/100
  else if node_text = compose_skill_text "Python" "TECHNICAL" Proficiency.EXPERT 3 then 27/100
  else 0

/-- The skill node of a candidate whose Python skill has the given number
of years, embedded through the composed skill text. -/
def pythonNode (years : ℕ) : GraphNode :=
  { nodeId := 1, nodeType := NodeType.Skill,
    embedding_text := compose_skill_text "Python" "TECHNICAL" Proficiency.EXPERT years }

/-- Counterexample to claim C9 as stated: under an admissible embedding
similarity, raising the Python skill's years of experience from 2 to 3
changes the composed embedding text, lowers the similarity from 35/100 to
27/100, and strictly lowers the match strength. -/
theorem years_monotonicity_counterexample :
    score_candidate exampleSim [pythonNode 3] [compGeneral] <
      score_candidate exampleSim [pythonNode 2] [compGeneral] := by
  simp +decide [score_candidate, score_job, exampleSim, pythonNode, compGeneral,
    find_evidence_matches, collect_evidence, compose_skill_text, compose_competency_text,
    Proficiency.text, evidence_floor, best_similarity, processComps, scoreComp,
    applyPenalty, match_strength_of, total_possible, total_earned, points_possible,
    Competency.weight, Competency.match_threshold, Competency.boost,
    category_weight, category_threshold, skill_only_coverage_penalty]
  try norm_num [best_similarity, processComps, scoreComp, applyPenalty,
    match_strength_of, total_possible, total_earned, points_possible,
    Competency.weight, Competency.match_threshold, Competency.boost,
    category_weight, category_threshold, skill_only_coverage_penalty,
    List.insertionSort, List.orderedInsert, sim_desc]

/-- Skill-only evidence at the lower similarity. -/
def evLow : Evidence :=
  { node_id := 1, node_type := NodeType.Skill, similarity := 27/100,
    text := "Python low" }

/-- Skill-only evidence at the higher similarity. -/
def evHigh : Evidence :=
  { node_id := 1, node_type := NodeType.Skill, similarity := 35/100,
    text := "Python high" }

theorem years_contribution_monotonicity_witness :
    skill_weight Proficiency.EXPERT 2 ≤ skill_weight Proficiency.EXPERT 3 ∧
    score_job [(compGeneral, [evLow])] ≤ score_job [(compGeneral, [evHigh])] :=
  ⟨years_contribution_monotonicity.1 Proficiency.EXPERT 2 3 (by norm_num),
   years_contribution_monotonicity.2 compGeneral [] [] [evLow] [evHigh]
     (by simp) (by simp)
     (by norm_num [best_similarity, evLow, evHigh])
     (by rfl)⟩

end ATS
